import Mathlib

/-!
Shallow embedding of the three custom generic sorting routines of
`CF.STL_Algorithm/algorithm.cpp` (`selection_sort`, `quicksort`, `merge_sort`)
over Lean lists, together with proofs of the specification's claims about
them.

A `Sequence` is embedded as a `List α`; a range `[first, last)` is the list
of its elements.  The element type's `operator<` (the comparator the C++
templates use implicitly through the instantiating type) is embedded as an
explicit parameter `lt : α → α → Bool`.  The standard-library primitives the
three routines call (`std::min_element`, `std::partition` for forward
iterators, `std::inplace_merge`) are modelled by their reference
implementations, noted at each definition.
-/

namespace STLAlg

variable {α : Type} {β : Type} {γ : Type}

/-- Comparator induced by a linear order: the element type's natural
`operator<`.  This is the default ordering the C++ templates use. -/
def ltb [LinearOrder α] (a b : α) : Bool := decide (a < b)

/-- Descending comparator on a linearly ordered type, for comparator
injection: instantiating the element type with one whose `operator<` is the
reverse of the natural order. -/
def ltd [LinearOrder α] (a b : α) : Bool := decide (b < a)

/-- Comparator on tagged elements that only sees the value, not the tag:
used to express stability of a sort. -/
def ltKey [LinearOrder γ] (p q : γ × β) : Bool := decide (p.1 < q.1)

/-- Transitivity of a Bool comparator. -/
def TransB (lt : α → α → Bool) : Prop :=
  ∀ a b c, lt a b = true → lt b c = true → lt a c = true

/-- Irreflexivity of a Bool comparator. -/
def IrreflB (lt : α → α → Bool) : Prop := ∀ a, lt a a = false

/-- Transitivity of the negation of a Bool comparator (holds for every
strict weak ordering). -/
def NegTransB (lt : α → α → Bool) : Prop :=
  ∀ a b c, lt a b = false → lt b c = false → lt a c = false

/-- A list is in non-descending order for comparator `lt`: no later element
is `lt`-below an earlier one. -/
def SortedB (lt : α → α → Bool) (l : List α) : Prop :=
  l.Pairwise (fun a b => lt b a = false)

/-- Scan loop of `std::min_element` on a range, the iterator kept as a
zipper: state `(pre, b, mid)` means the best (first minimal) element so far
is `b`, the elements before it are `pre`, and `mid` are the elements already
scanned after it.  `std::min_element` replaces the best only on a strict
`lt`. -/
def minScan (lt : α → α → Bool) : List α → List α × α × List α → List α × α × List α
  | [], s => s
  | y :: ys, (pre, b, mid) =>
    if lt y b then minScan lt ys (pre ++ b :: mid, y, [])
    else minScan lt ys (pre, b, mid ++ [y])

/-- Embeds `selection_sort` (algorithm.cpp lines 50–55): for each position
`i`, `std::iter_swap(i, std::min_element(i, end))`.  On `x :: xs` the first
minimum `m` splits the range as `A ++ m :: C`; the swap puts `m` at the
front and `x` where `m` was, and the loop continues on the tail. -/
def selection_sort (lt : α → α → Bool) : List α → List α
  | [] => []
  | x :: xs =>
    match h : minScan lt xs ([], x, []) with
    | ([], m, c) => m :: selection_sort lt c
    | (_ :: a, m, c) => m :: selection_sort lt (a ++ x :: c)
termination_by l => l.length
decreasing_by
  all_goals
    have key : ∀ (ys : List α) (s : List α × α × List α),
        (minScan lt ys s).1.length + (minScan lt ys s).2.2.length
          = s.1.length + s.2.2.length + ys.length := by
      intro ys
      induction ys with
      | nil => intro s; simp [minScan]
      | cons y ys ih =>
        intro s
        rcases s with ⟨pre, b, mid⟩
        simp only [minScan]
        by_cases hy : lt y b
        · simp only [hy, if_pos]
          rw [ih (pre ++ b :: mid, y, [])]
          simp
          omega
        · rw [if_neg (by simp [hy])]
          rw [ih (pre, b, mid ++ [y])]
          simp
          omega
  · have h1 := key xs ([], x, [])
    rw [h] at h1
    simp at h1 ⊢
    omega
  · have h1 := key xs ([], x, [])
    rw [h] at h1
    simp at h1 ⊢
    omega

/-- Embeds `std::inplace_merge` (called by `merge_sort`): stable merge of
two consecutive sorted ranges; an element of the right range is taken first
only when it is strictly `lt`-below the left head. -/
def inplace_merge (lt : α → α → Bool) : List α → List α → List α
  | [], ys => ys
  | x :: xs, [] => x :: xs
  | x :: xs, y :: ys =>
    if lt y x then y :: inplace_merge lt (x :: xs) ys
    else x :: inplace_merge lt xs (y :: ys)
termination_by xs ys => xs.length + ys.length

/-- Embeds `merge_sort` (algorithm.cpp lines 78–87): if `last - first > 1`,
recurse on the halves split at `first + (last - first) / 2` and merge them
with `std::inplace_merge`. -/
def merge_sort (lt : α → α → Bool) (l : List α) : List α :=
  if 1 < l.length then
    inplace_merge lt (merge_sort lt (l.take (l.length / 2)))
      (merge_sort lt (l.drop (l.length / 2)))
  else l
termination_by l.length
decreasing_by
  · simp only [List.length_take]
    omega
  · simp only [List.length_drop]
    omega

/-- Swap loop of `std::partition` for forward iterators (the reference
implementation, used by `quicksort` on a `forward_list` in algorithm.cpp):
`ts` are the predicate-true elements already moved before the boundary,
`fs` the window of predicate-false elements between the boundary and the
scan position.  When the scanned element `y` satisfies `p`, it is swapped
with the window head, which moves to the window's end. -/
def partLoop (p : α → Bool) : List α → List α → List α → List α × List α
  | [], ts, fs => (ts, fs)
  | y :: rest, ts, fs =>
    if p y then partLoop p rest (ts ++ [y]) (fs.tail ++ fs.take 1)
    else partLoop p rest ts (fs ++ [y])

/-- Embeds `std::partition` for forward iterators: skip the maximal prefix
of predicate-true elements (`std::find_if_not`), then run the swap loop.
Returns the two blocks; the reordered range is their concatenation and the
returned iterator `middle` is the boundary between them. -/
def cppPartition (p : α → Bool) : List α → List α × List α
  | [] => ([], [])
  | x :: xs =>
    if p x then ((cppPartition p xs).1.cons x, (cppPartition p xs).2)
    else partLoop p xs [] [x]

/-- Pivot choice of `quicksort` (algorithm.cpp line 65) on the nonempty
range `x :: xs`: the value at `std::next(first, std::distance(first, last) / 2)`. -/
def qsPivot (x : α) (xs : List α) : α := (x :: xs).getD ((xs.length + 1) / 2) x

/-- Block `[first, middle1)` after the first partition of a `quicksort`
step: the elements strictly `lt`-below the pivot, as arranged by
`std::partition` with predicate `em < pivot` (algorithm.cpp lines 67–68). -/
def qsLess (lt : α → α → Bool) (x : α) (xs : List α) : List α :=
  (cppPartition (fun em => lt em (qsPivot x xs)) (x :: xs)).1

/-- Block `[middle1, last)` after the first partition of a `quicksort`
step: the elements not strictly `lt`-below the pivot. -/
def qsRest (lt : α → α → Bool) (x : α) (xs : List α) : List α :=
  (cppPartition (fun em => lt em (qsPivot x xs)) (x :: xs)).2

/-- Block `[middle1, middle2)` after the second partition of a `quicksort`
step (predicate `!(pivot < em)`, algorithm.cpp lines 69–70): the elements
equivalent to the pivot, left in final position. -/
def qsEqual (lt : α → α → Bool) (x : α) (xs : List α) : List α :=
  (cppPartition (fun em => !(lt (qsPivot x xs) em)) (qsRest lt x xs)).1

/-- Block `[middle2, last)` after the second partition of a `quicksort`
step: the elements strictly `lt`-above the pivot. -/
def qsGreater (lt : α → α → Bool) (x : α) (xs : List α) : List α :=
  (cppPartition (fun em => !(lt (qsPivot x xs) em)) (qsRest lt x xs)).2

/-- Embeds `quicksort` (algorithm.cpp lines 60–73) with explicit recursion
fuel: empty range returns; otherwise partition the range by `em < pivot`,
partition the remainder by `!(pivot < em)`, and recurse on the strictly-less
and strictly-greater blocks, the equal block staying in place.  `none`
means the fuel was exhausted before the recursion bottomed out. -/
def quicksortFuel (lt : α → α → Bool) : Nat → List α → Option (List α)
  | _, [] => some []
  | 0, _ :: _ => none
  | fuel + 1, x :: xs =>
    match quicksortFuel lt fuel (qsLess lt x xs),
          quicksortFuel lt fuel (qsGreater lt x xs) with
    | some a, some b => some (a ++ qsEqual lt x xs ++ b)
    | _, _ => none

/-- The `quicksort` entry point: a range of length `n` needs at most `n`
levels of fuel (proved below), so the call is made with that much. -/
def quicksort (lt : α → α → Bool) (l : List α) : Option (List α) :=
  quicksortFuel lt l.length l

/-- Applying an in-place sorting routine to the sub-range `[a, b)` of an
underlying sequence: the iterators passed to the routine expose exactly the
elements of that sub-range, so the routine rewrites them and everything
outside the range is untouched storage. -/
def applyToRange (f : List α → List α) (s : List α) (a b : Nat) : List α :=
  s.take a ++ f ((s.drop a).take (b - a)) ++ s.drop b

end STLAlg

namespace STLAlg

/-- The zipper state of `minScan` always reassembles to the scanned range. -/
theorem minScan_concat (lt : α → α → Bool) :
    ∀ (ys pre : List α) (b : α) (mid : List α),
      (minScan lt ys (pre, b, mid)).1
        ++ (minScan lt ys (pre, b, mid)).2.1 :: (minScan lt ys (pre, b, mid)).2.2
      = pre ++ b :: mid ++ ys := by
  intro ys
  induction ys with
  | nil => intro pre b mid; simp [minScan]
  | cons y ys ih =>
    intro pre b mid
    simp only [minScan]
    by_cases h : lt y b
    · simp only [h, if_pos]
      rw [ih]
      simp
    · simp only [h]
      rw [if_neg (by simp [h])]
      rw [ih]
      simp

/-- The best element tracked by `minScan` is `lt`-minimal among everything
scanned, provided it was minimal among the initial state. -/
theorem minScan_min (lt : α → α → Bool) (hirr : IrreflB lt) (htr : TransB lt) :
    ∀ (ys pre : List α) (b : α) (mid : List α),
      (∀ z ∈ pre, lt z b = false) → (∀ z ∈ mid, lt z b = false) →
      ∀ z ∈ pre ++ b :: mid ++ ys, lt z (minScan lt ys (pre, b, mid)).2.1 = false := by
  intro ys
  induction ys with
  | nil =>
    intro pre b mid hpre hmid z hz
    simp [minScan]
    simp at hz
    rcases hz with hz | hz | hz
    · exact hpre z hz
    · rw [hz]; exact hirr b
    · exact hmid z hz
  | cons y ys ih =>
    intro pre b mid hpre hmid z hz
    simp only [minScan]
    by_cases h : lt y b
    · simp only [h, if_pos]
      have hall : ∀ w ∈ pre ++ b :: mid, lt w y = false := by
        intro w hw
        by_contra hwy
        rw [Bool.not_eq_false] at hwy
        have hwb : lt w b = true := htr w y b hwy h
        simp at hw
        rcases hw with hw | hw | hw
        · rw [hpre w hw] at hwb; exact Bool.false_ne_true hwb
        · rw [hw] at hwb; rw [hirr b] at hwb; exact Bool.false_ne_true hwb
        · rw [hmid w hw] at hwb; exact Bool.false_ne_true hwb
      have := ih (pre ++ b :: mid) y [] hall (by intro z hz; simp at hz) z
      apply this
      simp at hz ⊢
      tauto
    · rw [if_neg (by simp [h])]
      have hmid' : ∀ z ∈ mid ++ [y], lt z b = false := by
        intro w hw
        simp at hw
        rcases hw with hw | hw
        · exact hmid w hw
        · rw [hw]; simpa using h
      have := ih pre b (mid ++ [y]) hpre hmid' z
      apply this
      simp at hz ⊢
      tauto

/-- When no remaining element beats the current best, `minScan` only
appends the remainder to the scanned part. -/
theorem minScan_nochange (lt : α → α → Bool) :
    ∀ (ys : List α), (∀ y ∈ ys, lt y b = false) →
      ∀ (pre mid : List α), minScan lt ys (pre, b, mid) = (pre, b, mid ++ ys) := by
  intro ys
  induction ys with
  | nil => intro _ pre mid; simp [minScan]
  | cons y ys ih =>
    intro hys pre mid
    simp only [minScan]
    rw [if_neg (by simp [hys y (by simp)])]
    rw [ih (by intro w hw; exact hys w (by simp [hw])) pre (mid ++ [y])]
    simp

/-- The selection sort returns a permutation of its input. -/
theorem selection_sort_perm (lt : α → α → Bool) :
    ∀ (n : Nat) (l : List α), l.length ≤ n → (selection_sort lt l).Perm l := by
  intro n
  induction n with
  | zero =>
    intro l hl
    rw [List.length_eq_zero.mp (Nat.le_zero.mp hl)]
    simp [selection_sort]
  | succ n ih =>
    intro l hl
    match l with
    | [] => simp [selection_sort]
    | x :: xs =>
      rw [selection_sort]
      split
      case _ m c h =>
        have hc := minScan_concat lt xs [] x []
        rw [h] at hc
        simp at hc
        rw [← hc.1, ← hc.2]
        exact (ih c (by
          have h1 := congrArg List.length hc.2
          simp at h1 hl
          omega)).cons m
      case _ hd a m c h =>
        have hc := minScan_concat lt xs [] x []
        rw [h] at hc
        simp at hc
        have hlen : a.length + 1 + c.length = xs.length := by
          have h1 := congrArg List.length hc.2
          simp at h1
          omega
        have hperm1 : (selection_sort lt (a ++ x :: c)).Perm (a ++ x :: c) :=
          ih (a ++ x :: c) (by simp at hl ⊢; omega)
        have h2 : (m :: (a ++ x :: c)).Perm (x :: (a ++ m :: c)) :=
          (List.perm_middle.cons m).trans
            ((List.Perm.swap x m (a ++ c)).trans (List.perm_middle.symm.cons x))
        rw [← hc.2]
        exact (hperm1.cons m).trans h2

/-- Bundled form of `selection_sort_perm`. -/
theorem selection_sort_perm' (lt : α → α → Bool) (l : List α) :
    (selection_sort lt l).Perm l :=
  selection_sort_perm lt l.length l le_rfl

/-- The selection sort produces a non-descending arrangement for any
irreflexive, transitive comparator. -/
theorem selection_sort_sortedB (lt : α → α → Bool) (hirr : IrreflB lt)
    (htr : TransB lt) :
    ∀ (n : Nat) (l : List α), l.length ≤ n → SortedB lt (selection_sort lt l) := by
  intro n
  induction n with
  | zero =>
    intro l hl
    rw [List.length_eq_zero.mp (Nat.le_zero.mp hl)]
    simp [selection_sort, SortedB]
  | succ n ih =>
    intro l hl
    match l with
    | [] => simp [selection_sort, SortedB]
    | x :: xs =>
      have hmin := minScan_min lt hirr htr xs [] x [] (by simp) (by simp)
      rw [selection_sort]
      split
      case _ m c h =>
        rw [h] at hmin
        simp at hmin
        have hc := minScan_concat lt xs [] x []
        rw [h] at hc
        simp at hc
        refine List.Pairwise.cons ?_ ?_
        · intro z hz
          have hz' : z ∈ c := (selection_sort_perm' lt c).mem_iff.mp hz
          rcases hmin with ⟨hm1, hm2⟩
          rw [← hc.2] at hm2
          exact hm2 z hz'
        · exact ih c (by
            have h1 := congrArg List.length hc.2
            simp at h1 hl
            omega)
      case _ hd a m c h =>
        rw [h] at hmin
        simp at hmin
        have hc := minScan_concat lt xs [] x []
        rw [h] at hc
        simp at hc
        refine List.Pairwise.cons ?_ ?_
        · intro z hz
          have hz' : z ∈ a ++ x :: c := (selection_sort_perm' lt _).mem_iff.mp hz
          simp at hz'
          rcases hmin with ⟨hm1, hm2⟩
          rw [← hc.2] at hm2
          rcases hz' with hz' | hz' | hz'
          · exact hm2 z (by simp [hz'])
          · rw [hz']; exact hm1
          · exact hm2 z (by simp [hz'])
        · refine ih (a ++ x :: c) ?_
          have h1 := congrArg List.length hc.2
          simp at h1 hl ⊢
          omega

/-- Bundled form of `selection_sort_sortedB`. -/
theorem selection_sort_sortedB' (lt : α → α → Bool) (hirr : IrreflB lt)
    (htr : TransB lt) (l : List α) : SortedB lt (selection_sort lt l) :=
  selection_sort_sortedB lt hirr htr l.length l le_rfl

/-- On an already non-descending range the selection sort is the identity:
every minimum scan returns the current head. -/
theorem selection_sort_sorted_id (lt : α → α → Bool) :
    ∀ (n : Nat) (l : List α), l.length ≤ n → SortedB lt l →
      selection_sort lt l = l := by
  intro n
  induction n with
  | zero =>
    intro l hl _
    rw [List.length_eq_zero.mp (Nat.le_zero.mp hl)]
    simp [selection_sort]
  | succ n ih =>
    intro l hl hs
    match l with
    | [] => simp [selection_sort]
    | x :: xs =>
      rw [SortedB, List.pairwise_cons] at hs
      have hm := minScan_nochange lt xs hs.1 [] []
      simp only [List.nil_append] at hm
      rw [selection_sort]
      split
      case _ m c h =>
        rw [hm] at h
        injection h with h1 h2
        injection h2 with h2 h3
        subst h3
        simp at hl
        rw [ih xs (by omega) hs.2, ← h2]
      case _ hd a m c h =>
        rw [hm] at h
        simp at h

/-- The natural comparator of a linear order is irreflexive. -/
theorem ltb_irrefl [LinearOrder α] : IrreflB (ltb (α := α)) := by
  intro a; simp [ltb]

/-- The natural comparator of a linear order is transitive. -/
theorem ltb_trans [LinearOrder α] : TransB (ltb (α := α)) := by
  intro a b c hab hbc
  simp [ltb] at hab hbc ⊢
  exact hab.trans hbc

/-- The negation of the natural comparator of a linear order is transitive. -/
theorem ltb_negtrans [LinearOrder α] : NegTransB (ltb (α := α)) := by
  intro a b c hab hbc
  simp [ltb] at hab hbc ⊢
  exact hbc.trans hab

/-- The value-only comparator on tagged elements is irreflexive. -/
theorem ltKey_irrefl [LinearOrder γ] : IrreflB (ltKey (β := β) (γ := γ)) := by
  intro a; simp [ltKey]

/-- The value-only comparator on tagged elements is transitive. -/
theorem ltKey_trans [LinearOrder γ] : TransB (ltKey (β := β) (γ := γ)) := by
  intro a b c hab hbc
  simp [ltKey] at hab hbc ⊢
  exact hab.trans hbc

/-- The negation of the value-only comparator is transitive. -/
theorem ltKey_negtrans [LinearOrder γ] : NegTransB (ltKey (β := β) (γ := γ)) := by
  intro a b c hab hbc
  simp [ltKey] at hab hbc ⊢
  exact hbc.trans hab

/-- The merge of two ranges is a permutation of their concatenation. -/
theorem inplace_merge_perm (lt : α → α → Bool) :
    ∀ (n : Nat) (xs ys : List α), xs.length + ys.length ≤ n →
      (inplace_merge lt xs ys).Perm (xs ++ ys) := by
  intro n
  induction n with
  | zero =>
    intro xs ys h
    match xs, ys with
    | [], [] => simp [inplace_merge]
    | [], _ :: _ => simp at h
    | _ :: _, _ => simp at h
  | succ n ih =>
    intro xs ys h
    match xs, ys with
    | [], ys => simp [inplace_merge]
    | x :: xs, [] => simp [inplace_merge]
    | x :: xs, y :: ys =>
      rw [inplace_merge]
      by_cases hyx : lt y x
      · rw [if_pos hyx]
        have h1 := ih (x :: xs) ys (by simp at h ⊢; omega)
        exact (h1.cons y).trans List.perm_middle.symm
      · rw [if_neg hyx]
        exact (ih xs (y :: ys) (by simp at h ⊢; omega)).cons x

/-- Bundled form of `inplace_merge_perm`. -/
theorem inplace_merge_perm' (lt : α → α → Bool) (xs ys : List α) :
    (inplace_merge lt xs ys).Perm (xs ++ ys) :=
  inplace_merge_perm lt (xs.length + ys.length) xs ys le_rfl

/-- Merging two non-descending ranges yields a non-descending range. -/
theorem inplace_merge_sortedB (lt : α → α → Bool) (hirr : IrreflB lt)
    (htr : TransB lt) (hneg : NegTransB lt) :
    ∀ (n : Nat) (xs ys : List α), xs.length + ys.length ≤ n →
      SortedB lt xs → SortedB lt ys → SortedB lt (inplace_merge lt xs ys) := by
  intro n
  induction n with
  | zero =>
    intro xs ys h hxs hys
    match xs, ys with
    | [], [] => simp [inplace_merge, SortedB]
    | [], _ :: _ => simp at h
    | _ :: _, _ => simp at h
  | succ n ih =>
    intro xs ys h hxs hys
    match xs, ys with
    | [], ys => simpa [inplace_merge] using hys
    | x :: xs, [] => simpa [inplace_merge] using hxs
    | x :: xs, y :: ys =>
      rw [SortedB, List.pairwise_cons] at hxs hys
      rw [inplace_merge]
      by_cases hyx : lt y x
      · rw [if_pos hyx]
        refine List.Pairwise.cons ?_ ?_
        · intro z hz
          have hz' : z ∈ (x :: xs) ++ ys :=
            (inplace_merge_perm' lt (x :: xs) ys).mem_iff.mp hz
          simp at hz'
          rcases hz' with hz' | hz' | hz'
          · subst hz'
            by_contra hc
            rw [Bool.not_eq_false] at hc
            have := htr z y z hc hyx
            rw [hirr z] at this
            exact Bool.false_ne_true this
          · by_contra hc
            rw [Bool.not_eq_false] at hc
            have := htr z y x hc hyx
            rw [hxs.1 z hz'] at this
            exact Bool.false_ne_true this
          · exact hys.1 z hz'
        · exact ih (x :: xs) ys (by simp at h ⊢; omega)
            (by rw [SortedB, List.pairwise_cons]; exact hxs) hys.2
      · rw [if_neg hyx]
        refine List.Pairwise.cons ?_ ?_
        · intro z hz
          have hz' : z ∈ xs ++ (y :: ys) :=
            (inplace_merge_perm' lt xs (y :: ys)).mem_iff.mp hz
          simp at hz'
          rcases hz' with hz' | hz' | hz'
          · exact hxs.1 z hz'
          · subst hz'; simpa using hyx
          · exact hneg z y x (hys.1 z hz') (by simpa using hyx)
        · exact ih xs (y :: ys) (by simp at h ⊢; omega) hxs.2
            (by rw [SortedB, List.pairwise_cons]; exact hys)

/-- Merging two adjacent ranges that are already jointly non-descending
changes nothing. -/
theorem inplace_merge_append_of_sorted (lt : α → α → Bool) :
    ∀ (n : Nat) (xs ys : List α), xs.length + ys.length ≤ n →
      SortedB lt (xs ++ ys) → inplace_merge lt xs ys = xs ++ ys := by
  intro n
  induction n with
  | zero =>
    intro xs ys h _
    match xs, ys with
    | [], [] => simp [inplace_merge]
    | [], _ :: _ => simp at h
    | _ :: _, _ => simp at h
  | succ n ih =>
    intro xs ys h hs
    match xs, ys with
    | [], ys => simp [inplace_merge]
    | x :: xs, [] => simp [inplace_merge]
    | x :: xs, y :: ys =>
      rw [List.cons_append, SortedB, List.pairwise_cons] at hs
      rw [inplace_merge]
      rw [if_neg (by rw [hs.1 y (by simp)]; simp)]
      rw [ih xs (y :: ys) (by simp at h ⊢; omega) hs.2]
      rfl

/-- Stability of the merge: restricted to any one key value, the merged
range is the left range's elements of that key followed by the right
range's, in their original orders. -/
theorem inplace_merge_filter [LinearOrder γ] (k : γ) :
    ∀ (n : Nat) (xs ys : List (γ × β)), xs.length + ys.length ≤ n →
      SortedB ltKey xs → SortedB ltKey ys →
      (inplace_merge ltKey xs ys).filter (fun p => decide (p.1 = k))
        = xs.filter (fun p => decide (p.1 = k))
          ++ ys.filter (fun p => decide (p.1 = k)) := by
  intro n
  induction n with
  | zero =>
    intro xs ys h _ _
    match xs, ys with
    | [], [] => simp [inplace_merge]
    | [], _ :: _ => simp at h
    | _ :: _, _ => simp at h
  | succ n ih =>
    intro xs ys h hxs hys
    match xs, ys with
    | [], ys => simp [inplace_merge]
    | x :: xs, [] => simp [inplace_merge]
    | x :: xs, y :: ys =>
      rw [SortedB, List.pairwise_cons] at hxs hys
      rw [inplace_merge]
      by_cases hyx : ltKey y x
      · rw [if_pos hyx]
        have hrec := ih (x :: xs) ys (by simp at h ⊢; omega)
          (by rw [SortedB, List.pairwise_cons]; exact hxs) hys.2
        by_cases hk : y.1 = k
        · have hxnil : (x :: xs).filter (fun p => decide (p.1 = k)) = [] := by
            rw [List.filter_eq_nil_iff]
            intro z hz
            simp only [decide_eq_true_eq]
            intro hzk
            have h2 : y.1 < x.1 := by simpa [ltKey] using hyx
            have hxz : x.1 ≤ z.1 := by
              simp at hz
              rcases hz with hz | hz
              · subst hz; exact le_refl _
              · have h3 := hxs.1 z hz
                simpa [ltKey] using h3
            rw [hzk, ← hk] at hxz
            exact absurd (h2.trans_le hxz) (lt_irrefl y.1)
          rw [List.filter_cons_of_pos (a := y) (by simp [hk]), hrec, hxnil,
            List.filter_cons_of_pos (a := y) (by simp [hk])]
          simp
        · rw [List.filter_cons_of_neg (a := y) (by simp [hk]), hrec,
            List.filter_cons_of_neg (a := y) (by simp [hk])]
      · rw [if_neg hyx]
        have hrec := ih xs (y :: ys) (by simp at h ⊢; omega) hxs.2
          (by rw [SortedB, List.pairwise_cons]; exact hys)
        by_cases hk : x.1 = k
        · rw [List.filter_cons_of_pos (a := x) (by simp [hk]), hrec,
            List.filter_cons_of_pos (a := x) (by simp [hk])]
          rfl
        · rw [List.filter_cons_of_neg (a := x) (by simp [hk]), hrec,
            List.filter_cons_of_neg (a := x) (by simp [hk])]

/-- The merge sort returns a permutation of its input. -/
theorem merge_sort_perm (lt : α → α → Bool) :
    ∀ (n : Nat) (l : List α), l.length ≤ n → (merge_sort lt l).Perm l := by
  intro n
  induction n with
  | zero =>
    intro l hl
    rw [List.length_eq_zero.mp (Nat.le_zero.mp hl)]
    rw [merge_sort]
    simp
  | succ n ih =>
    intro l hl
    rw [merge_sort]
    by_cases hlen : 1 < l.length
    · rw [if_pos hlen]
      have h1 := ih (l.take (l.length / 2)) (by simp; omega)
      have h2 := ih (l.drop (l.length / 2)) (by simp; omega)
      refine (inplace_merge_perm' lt _ _).trans ((h1.append h2).trans ?_)
      rw [List.take_append_drop]
    · rw [if_neg hlen]

/-- Bundled form of `merge_sort_perm`. -/
theorem merge_sort_perm' (lt : α → α → Bool) (l : List α) :
    (merge_sort lt l).Perm l :=
  merge_sort_perm lt l.length l le_rfl

/-- The merge sort produces a non-descending arrangement for any comparator
that is irreflexive, transitive, and negation-transitive. -/
theorem merge_sort_sortedB (lt : α → α → Bool) (hirr : IrreflB lt)
    (htr : TransB lt) (hneg : NegTransB lt) :
    ∀ (n : Nat) (l : List α), l.length ≤ n → SortedB lt (merge_sort lt l) := by
  intro n
  induction n with
  | zero =>
    intro l hl
    rw [List.length_eq_zero.mp (Nat.le_zero.mp hl)]
    rw [merge_sort]
    simp [SortedB]
  | succ n ih =>
    intro l hl
    rw [merge_sort]
    by_cases hlen : 1 < l.length
    · rw [if_pos hlen]
      exact inplace_merge_sortedB lt hirr htr hneg _ _ _ le_rfl
        (ih (l.take (l.length / 2)) (by simp; omega))
        (ih (l.drop (l.length / 2)) (by simp; omega))
    · rw [if_neg hlen]
      rcases l with _ | ⟨a, _ | ⟨b, t⟩⟩
      · simp [SortedB]
      · simp [SortedB]
      · simp at hlen

/-- Bundled form of `merge_sort_sortedB`. -/
theorem merge_sort_sortedB' (lt : α → α → Bool) (hirr : IrreflB lt)
    (htr : TransB lt) (hneg : NegTransB lt) (l : List α) :
    SortedB lt (merge_sort lt l) :=
  merge_sort_sortedB lt hirr htr hneg l.length l le_rfl

/-- On an already non-descending range the merge sort is the identity. -/
theorem merge_sort_sorted_id (lt : α → α → Bool) :
    ∀ (n : Nat) (l : List α), l.length ≤ n → SortedB lt l →
      merge_sort lt l = l := by
  intro n
  induction n with
  | zero =>
    intro l hl _
    rw [List.length_eq_zero.mp (Nat.le_zero.mp hl)]
    rw [merge_sort]
    simp
  | succ n ih =>
    intro l hl hs
    rw [merge_sort]
    by_cases hlen : 1 < l.length
    · rw [if_pos hlen]
      have htk : SortedB lt (l.take (l.length / 2)) :=
        hs.sublist (List.take_sublist _ _)
      have hdr : SortedB lt (l.drop (l.length / 2)) :=
        hs.sublist (List.drop_sublist _ _)
      rw [ih (l.take (l.length / 2)) (by simp; omega) htk,
        ih (l.drop (l.length / 2)) (by simp; omega) hdr]
      rw [inplace_merge_append_of_sorted lt
        ((l.take (l.length / 2)).length + (l.drop (l.length / 2)).length) _ _
        le_rfl (by rw [List.take_append_drop]; exact hs)]
      rw [List.take_append_drop]
    · rw [if_neg hlen]

/-- Restricting the output of merge sort to one key value gives exactly the
input's elements of that key, in their original order: merge sort is
stable. -/
theorem merge_sort_filter [LinearOrder γ] (k : γ) :
    ∀ (n : Nat) (l : List (γ × β)), l.length ≤ n →
      (merge_sort ltKey l).filter (fun p => decide (p.1 = k))
        = l.filter (fun p => decide (p.1 = k)) := by
  intro n
  induction n with
  | zero =>
    intro l hl
    rw [List.length_eq_zero.mp (Nat.le_zero.mp hl)]
    rw [merge_sort]
    simp
  | succ n ih =>
    intro l hl
    rw [merge_sort]
    by_cases hlen : 1 < l.length
    · rw [if_pos hlen]
      rw [inplace_merge_filter k
        ((merge_sort ltKey (l.take (l.length / 2))).length
          + (merge_sort ltKey (l.drop (l.length / 2))).length) _ _ le_rfl
        (merge_sort_sortedB' ltKey ltKey_irrefl ltKey_trans ltKey_negtrans _)
        (merge_sort_sortedB' ltKey ltKey_irrefl ltKey_trans ltKey_negtrans _)]
      rw [ih (l.take (l.length / 2)) (by simp; omega),
        ih (l.drop (l.length / 2)) (by simp; omega)]
      rw [← List.filter_append, List.take_append_drop]
    · rw [if_neg hlen]

/-- The window of the partition swap loop rotates; rotation is a
permutation. -/
theorem tail_take_perm (fs : List α) : (fs.tail ++ fs.take 1).Perm fs := by
  rcases fs with _ | ⟨f, fs⟩
  · simp
  · simpa using List.perm_append_singleton f fs

/-- The two blocks of the partition swap loop hold exactly the elements fed
into it. -/
theorem partLoop_perm (p : α → Bool) :
    ∀ (rest ts fs : List α),
      ((partLoop p rest ts fs).1 ++ (partLoop p rest ts fs).2).Perm
        (ts ++ fs ++ rest) := by
  intro rest
  induction rest with
  | nil => intro ts fs; simp [partLoop]
  | cons y rest ih =>
    intro ts fs
    rw [partLoop]
    by_cases hy : p y
    · rw [if_pos hy]
      refine (ih (ts ++ [y]) (fs.tail ++ fs.take 1)).trans ?_
      have h1 : (ts ++ [y]) ++ (fs.tail ++ fs.take 1) ++ rest
          = ts ++ y :: ((fs.tail ++ fs.take 1) ++ rest) := by
        simp
      rw [h1, List.append_assoc ts fs (y :: rest)]
      refine List.Perm.append_left ts ?_
      refine (((tail_take_perm fs).append_right rest).cons y).trans ?_
      exact List.perm_middle.symm
    · rw [if_neg hy]
      refine (ih ts (fs ++ [y])).trans ?_
      simp

/-- Elements in the first block of the swap loop satisfy the predicate,
elements in the second do not, given that the starting state does. -/
theorem partLoop_preds (p : α → Bool) :
    ∀ (rest ts fs : List α), (∀ z ∈ ts, p z = true) → (∀ z ∈ fs, p z = false) →
      (∀ z ∈ (partLoop p rest ts fs).1, p z = true)
        ∧ (∀ z ∈ (partLoop p rest ts fs).2, p z = false) := by
  intro rest
  induction rest with
  | nil => intro ts fs hts hfs; simpa [partLoop] using ⟨hts, hfs⟩
  | cons y rest ih =>
    intro ts fs hts hfs
    rw [partLoop]
    by_cases hy : p y
    · rw [if_pos hy]
      refine ih (ts ++ [y]) (fs.tail ++ fs.take 1) ?_ ?_
      · intro z hz
        simp at hz
        rcases hz with hz | hz
        · exact hts z hz
        · rw [hz]; exact hy
      · intro z hz
        simp at hz
        rcases hz with hz | hz
        · exact hfs z (List.mem_of_mem_tail hz)
        · exact hfs z ((List.take_sublist 1 fs).mem hz)
    · rw [if_neg hy]
      refine ih ts (fs ++ [y]) hts ?_
      intro z hz
      simp at hz
      rcases hz with hz | hz
      · exact hfs z hz
      · rw [hz]; simpa using hy

/-- When no remaining element satisfies the predicate, the swap loop moves
nothing. -/
theorem partLoop_nochange (p : α → Bool) :
    ∀ (rest : List α), (∀ y ∈ rest, p y = false) →
      ∀ (ts fs : List α), partLoop p rest ts fs = (ts, fs ++ rest) := by
  intro rest
  induction rest with
  | nil => intro _ ts fs; simp [partLoop]
  | cons y rest ih =>
    intro hrest ts fs
    rw [partLoop]
    rw [if_neg (by simp [hrest y (by simp)])]
    rw [ih (by intro w hw; exact hrest w (by simp [hw])) ts (fs ++ [y])]
    simp

/-- The partition permutes the range: its two blocks concatenate to a
permutation of the input. -/
theorem cppPartition_perm (p : α → Bool) :
    ∀ (l : List α), ((cppPartition p l).1 ++ (cppPartition p l).2).Perm l := by
  intro l
  induction l with
  | nil => simp [cppPartition]
  | cons x xs ih =>
    rw [cppPartition]
    by_cases hx : p x
    · rw [if_pos hx]
      simpa using ih.cons x
    · rw [if_neg hx]
      refine (partLoop_perm p xs [] [x]).trans ?_
      simp

/-- Elements of the first partition block satisfy the predicate; elements
of the second do not. -/
theorem cppPartition_preds (p : α → Bool) :
    ∀ (l : List α), (∀ z ∈ (cppPartition p l).1, p z = true)
      ∧ (∀ z ∈ (cppPartition p l).2, p z = false) := by
  intro l
  induction l with
  | nil => simp [cppPartition]
  | cons x xs ih =>
    rw [cppPartition]
    by_cases hx : p x
    · rw [if_pos hx]
      refine ⟨?_, ih.2⟩
      intro z hz
      simp at hz
      rcases hz with hz | hz
      · rw [hz]; exact hx
      · exact ih.1 z hz
    · rw [if_neg hx]
      exact partLoop_preds p xs [] [x] (by simp)
        (by intro z hz; simp at hz; rw [hz]; simpa using hx)

/-- On a non-descending range whose predicate is closed under moving toward
the front, the partition moves nothing: the two blocks concatenate to the
range itself. -/
theorem cppPartition_sorted_eq (lt : α → α → Bool) (p : α → Bool)
    (hdc : ∀ a b, lt b a = false → p b = true → p a = true) :
    ∀ (l : List α), SortedB lt l →
      (cppPartition p l).1 ++ (cppPartition p l).2 = l := by
  intro l
  induction l with
  | nil => simp [cppPartition]
  | cons x xs ih =>
    intro hs
    rw [SortedB, List.pairwise_cons] at hs
    rw [cppPartition]
    by_cases hx : p x
    · rw [if_pos hx]
      simpa using ih hs.2
    · rw [if_neg hx]
      have hall : ∀ y ∈ xs, p y = false := by
        intro y hy
        by_contra hc
        rw [Bool.not_eq_false] at hc
        exact hx (hdc x y (hs.1 y hy) hc)
      rw [partLoop_nochange p xs hall [] [x]]
      simp

/-- The chosen pivot is an element of the range. -/
theorem qsPivot_mem (x : α) (xs : List α) : qsPivot x xs ∈ x :: xs := by
  rw [qsPivot]
  have hlt : (xs.length + 1) / 2 < (x :: xs).length := by
    simp
    omega
  rw [List.getD_eq_getElem (x :: xs) x hlt]
  exact List.getElem_mem hlt

/-- The first partition splits the range into the two blocks. -/
theorem qsLess_rest_perm (lt : α → α → Bool) (x : α) (xs : List α) :
    (qsLess lt x xs ++ qsRest lt x xs).Perm (x :: xs) :=
  cppPartition_perm _ (x :: xs)

/-- The second partition splits the remainder into the two blocks. -/
theorem qsEqual_greater_perm (lt : α → α → Bool) (x : α) (xs : List α) :
    (qsEqual lt x xs ++ qsGreater lt x xs).Perm (qsRest lt x xs) :=
  cppPartition_perm _ (qsRest lt x xs)

/-- Elements of the less block are strictly below the pivot. -/
theorem qsLess_mem (lt : α → α → Bool) (x : α) (xs : List α) :
    ∀ z ∈ qsLess lt x xs, lt z (qsPivot x xs) = true :=
  (cppPartition_preds _ (x :: xs)).1

/-- Elements of the remainder block are not strictly below the pivot. -/
theorem qsRest_mem (lt : α → α → Bool) (x : α) (xs : List α) :
    ∀ z ∈ qsRest lt x xs, lt z (qsPivot x xs) = false :=
  (cppPartition_preds _ (x :: xs)).2

/-- Elements of the equal block are incomparable with the pivot. -/
theorem qsEqual_mem (lt : α → α → Bool) (x : α) (xs : List α) :
    ∀ z ∈ qsEqual lt x xs,
      lt (qsPivot x xs) z = false ∧ lt z (qsPivot x xs) = false := by
  intro z hz
  constructor
  · have h1 := (cppPartition_preds
      (fun em => !(lt (qsPivot x xs) em)) (qsRest lt x xs)).1 z hz
    simpa using h1
  · refine qsRest_mem lt x xs z ?_
    exact (qsEqual_greater_perm lt x xs).mem_iff.mp (by simp [hz])

/-- Elements of the greater block are strictly above the pivot and not
below it. -/
theorem qsGreater_mem (lt : α → α → Bool) (x : α) (xs : List α) :
    ∀ z ∈ qsGreater lt x xs,
      lt (qsPivot x xs) z = true ∧ lt z (qsPivot x xs) = false := by
  intro z hz
  constructor
  · have h1 := (cppPartition_preds
      (fun em => !(lt (qsPivot x xs) em)) (qsRest lt x xs)).2 z hz
    simpa using h1
  · refine qsRest_mem lt x xs z ?_
    exact (qsEqual_greater_perm lt x xs).mem_iff.mp (by simp [hz])

/-- For an irreflexive comparator the pivot value lands in the equal block
of a quicksort step, so the equal block is nonempty and both recursive
blocks are strictly shorter than the range. -/
theorem qs_decrease (lt : α → α → Bool) (hirr : IrreflB lt) (x : α) (xs : List α) :
    qsPivot x xs ∈ qsEqual lt x xs ∧ (qsLess lt x xs).length ≤ xs.length
      ∧ (qsGreater lt x xs).length ≤ xs.length := by
  have hpm : qsPivot x xs ∈ x :: xs := qsPivot_mem x xs
  have hnl : qsPivot x xs ∉ qsLess lt x xs := by
    intro hl
    have := qsLess_mem lt x xs _ hl
    rw [hirr] at this
    exact Bool.false_ne_true this
  have hrest : qsPivot x xs ∈ qsRest lt x xs := by
    have := (qsLess_rest_perm lt x xs).mem_iff.mpr hpm
    simp at this
    tauto
  have hng : qsPivot x xs ∉ qsGreater lt x xs := by
    intro hg
    have := (qsGreater_mem lt x xs _ hg).1
    rw [hirr] at this
    exact Bool.false_ne_true this
  have heq : qsPivot x xs ∈ qsEqual lt x xs := by
    have := (qsEqual_greater_perm lt x xs).mem_iff.mpr hrest
    simp at this
    tauto
  have hlen1 := (qsLess_rest_perm lt x xs).length_eq
  have hlen2 := (qsEqual_greater_perm lt x xs).length_eq
  simp at hlen1 hlen2
  have hrpos : 0 < (qsRest lt x xs).length := List.length_pos.mpr (by
    intro hnil; rw [hnil] at hrest; simp at hrest)
  have hepos : 0 < (qsEqual lt x xs).length := List.length_pos.mpr (by
    intro hnil; rw [hnil] at heq; simp at heq)
  exact ⟨heq, by omega, by omega⟩

/-- With fuel at least the length of the range, the quicksort recursion
always completes (the spec's termination guarantee). -/
theorem quicksortFuel_isSome (lt : α → α → Bool) (hirr : IrreflB lt) :
    ∀ (fuel : Nat) (l : List α), l.length ≤ fuel →
      ∃ out, quicksortFuel lt fuel l = some out := by
  intro fuel
  induction fuel with
  | zero =>
    intro l hl
    rw [List.length_eq_zero.mp (Nat.le_zero.mp hl)]
    exact ⟨[], rfl⟩
  | succ fuel ih =>
    intro l hl
    match l with
    | [] => exact ⟨[], rfl⟩
    | x :: xs =>
      obtain ⟨hne, hL, hG⟩ := qs_decrease lt hirr x xs
      simp at hl
      obtain ⟨a, ha⟩ := ih (qsLess lt x xs) (by omega)
      obtain ⟨b, hb⟩ := ih (qsGreater lt x xs) (by omega)
      refine ⟨a ++ qsEqual lt x xs ++ b, ?_⟩
      simp only [quicksortFuel]
      rw [ha, hb]

/-- The result of the quicksort recursion does not depend on the fuel, as
long as the fuel suffices. -/
theorem quicksortFuel_irrel (lt : α → α → Bool) (hirr : IrreflB lt) :
    ∀ (fuel fuel' : Nat) (l : List α), l.length ≤ fuel → l.length ≤ fuel' →
      quicksortFuel lt fuel l = quicksortFuel lt fuel' l := by
  intro fuel
  induction fuel with
  | zero =>
    intro fuel' l hl _
    rw [List.length_eq_zero.mp (Nat.le_zero.mp hl)]
    match fuel' with
    | 0 => rfl
    | _ + 1 => rfl
  | succ fuel ih =>
    intro fuel' l hl hl'
    match l with
    | [] =>
      match fuel' with
      | 0 => rfl
      | _ + 1 => rfl
    | x :: xs =>
      match fuel' with
      | 0 => simp at hl'
      | fuel' + 1 =>
        obtain ⟨hne, hL, hG⟩ := qs_decrease lt hirr x xs
        simp at hl hl'
        simp only [quicksortFuel]
        rw [ih fuel' (qsLess lt x xs) (by omega) (by omega),
          ih fuel' (qsGreater lt x xs) (by omega) (by omega)]

/-- Whatever the quicksort recursion returns is a permutation of its
input. -/
theorem quicksortFuel_perm (lt : α → α → Bool) :
    ∀ (fuel : Nat) (l out : List α), quicksortFuel lt fuel l = some out →
      out.Perm l := by
  intro fuel
  induction fuel with
  | zero =>
    intro l out h
    match l with
    | [] =>
      have h1 : some [] = some out := h
      rw [← Option.some_inj.mp h1]
    | x :: xs => exact absurd h (by simp [quicksortFuel])
  | succ fuel ih =>
    intro l out h
    match l with
    | [] =>
      have h1 : some [] = some out := h
      rw [← Option.some_inj.mp h1]
    | x :: xs =>
      simp only [quicksortFuel] at h
      cases ha : quicksortFuel lt fuel (qsLess lt x xs) with
      | none => rw [ha] at h; simp at h
      | some a =>
        cases hb : quicksortFuel lt fuel (qsGreater lt x xs) with
        | none => rw [ha, hb] at h; simp at h
        | some b =>
          rw [ha, hb] at h
          simp at h
          have pa := ih _ a ha
          have pb := ih _ b hb
          rw [← h]
          have h1 : (a ++ (qsEqual lt x xs ++ b)).Perm
              (qsLess lt x xs ++ (qsEqual lt x xs ++ qsGreater lt x xs)) :=
            pa.append ((List.Perm.refl (qsEqual lt x xs)).append pb)
          exact h1.trans ((List.Perm.append_left _
            (qsEqual_greater_perm lt x xs)).trans (qsLess_rest_perm lt x xs))

/-- Whatever the quicksort recursion returns is non-descending, for any
irreflexive, transitive, negation-transitive comparator. -/
theorem quicksortFuel_sortedB (lt : α → α → Bool) (hirr : IrreflB lt)
    (htr : TransB lt) (hneg : NegTransB lt) :
    ∀ (fuel : Nat) (l out : List α), quicksortFuel lt fuel l = some out →
      SortedB lt out := by
  intro fuel
  induction fuel with
  | zero =>
    intro l out h
    match l with
    | [] =>
      have h1 : some [] = some out := h
      rw [← Option.some_inj.mp h1]
      simp [SortedB]
    | x :: xs => exact absurd h (by simp [quicksortFuel])
  | succ fuel ih =>
    intro l out h
    match l with
    | [] =>
      have h1 : some [] = some out := h
      rw [← Option.some_inj.mp h1]
      simp [SortedB]
    | x :: xs =>
      simp only [quicksortFuel] at h
      cases ha : quicksortFuel lt fuel (qsLess lt x xs) with
      | none => rw [ha] at h; simp at h
      | some a =>
        cases hb : quicksortFuel lt fuel (qsGreater lt x xs) with
        | none => rw [ha, hb] at h; simp at h
        | some b =>
          rw [ha, hb] at h
          simp at h
          rw [← h]
          have hma : ∀ z ∈ a, lt z (qsPivot x xs) = true := by
            intro z hz
            exact qsLess_mem lt x xs z ((quicksortFuel_perm lt fuel _ a ha).mem_iff.mp hz)
          have hmb : ∀ z ∈ b,
              lt (qsPivot x xs) z = true ∧ lt z (qsPivot x xs) = false := by
            intro z hz
            exact qsGreater_mem lt x xs z
              ((quicksortFuel_perm lt fuel _ b hb).mem_iff.mp hz)
          rw [SortedB, List.pairwise_append, List.pairwise_append]
          refine ⟨ih _ a ha, ⟨?_, ih _ b hb, ?_⟩, ?_⟩
          · refine List.pairwise_of_forall_mem_list ?_
            intro u hu v hv
            exact hneg v (qsPivot x xs) u (qsEqual_mem lt x xs v hv).2
              (qsEqual_mem lt x xs u hu).1
          · intro u hu v hv
            by_contra hc
            rw [Bool.not_eq_false] at hc
            have := htr (qsPivot x xs) v u (hmb v hv).1 hc
            rw [(qsEqual_mem lt x xs u hu).1] at this
            exact Bool.false_ne_true this
          · intro u hu v hv
            simp at hv
            by_contra hc
            rw [Bool.not_eq_false] at hc
            have hvp : lt v (qsPivot x xs) = false := by
              rcases hv with hv | hv
              · exact (qsEqual_mem lt x xs v hv).2
              · exact (hmb v hv).2
            have := htr v u (qsPivot x xs) hc (hma u hu)
            rw [hvp] at this
            exact Bool.false_ne_true this

/-- On an already non-descending range the quicksort recursion returns the
range unchanged: both partitions move nothing. -/
theorem quicksortFuel_sorted_fix (lt : α → α → Bool) (hirr : IrreflB lt)
    (hneg : NegTransB lt) :
    ∀ (fuel : Nat) (l : List α), l.length ≤ fuel → SortedB lt l →
      quicksortFuel lt fuel l = some l := by
  intro fuel
  induction fuel with
  | zero =>
    intro l hl _
    rw [List.length_eq_zero.mp (Nat.le_zero.mp hl)]
    rfl
  | succ fuel ih =>
    intro l hl hs
    match l with
    | [] => rfl
    | x :: xs =>
      have heq1 : qsLess lt x xs ++ qsRest lt x xs = x :: xs := by
        refine cppPartition_sorted_eq lt _ ?_ (x :: xs) hs
        intro u v huv hv
        by_contra hc
        rw [Bool.not_eq_true] at hc
        rw [hneg v u (qsPivot x xs) huv hc] at hv
        exact Bool.false_ne_true hv
      have hsrest : SortedB lt (qsRest lt x xs) :=
        hs.sublist (heq1 ▸ List.sublist_append_right (qsLess lt x xs) (qsRest lt x xs))
      have heq2 : qsEqual lt x xs ++ qsGreater lt x xs = qsRest lt x xs := by
        refine cppPartition_sorted_eq lt _ ?_ (qsRest lt x xs) hsrest
        intro u v huv hv
        simp at hv ⊢
        exact hneg (qsPivot x xs) v u hv huv
      have hsless : SortedB lt (qsLess lt x xs) :=
        hs.sublist (heq1 ▸ List.sublist_append_left (qsLess lt x xs) (qsRest lt x xs))
      have hsgreat : SortedB lt (qsGreater lt x xs) :=
        hsrest.sublist (heq2 ▸ List.sublist_append_right (qsEqual lt x xs) (qsGreater lt x xs))
      obtain ⟨hne, hL, hG⟩ := qs_decrease lt hirr x xs
      simp at hl
      simp only [quicksortFuel]
      rw [ih (qsLess lt x xs) (by omega) hsless,
        ih (qsGreater lt x xs) (by omega) hsgreat]
      show some (qsLess lt x xs ++ qsEqual lt x xs ++ qsGreater lt x xs)
        = some (x :: xs)
      rw [List.append_assoc, heq2, heq1]

/-- The quicksort entry point always returns a result (fuel equal to the
length suffices). -/
theorem quicksort_isSome (lt : α → α → Bool) (hirr : IrreflB lt) (l : List α) :
    ∃ out, quicksort lt l = some out :=
  quicksortFuel_isSome lt hirr l.length l le_rfl

/-- The quicksort entry point returns a permutation of its input. -/
theorem quicksort_perm (lt : α → α → Bool) (l out : List α)
    (h : quicksort lt l = some out) : out.Perm l :=
  quicksortFuel_perm lt l.length l out h

/-- The quicksort entry point returns a non-descending range. -/
theorem quicksort_sortedB (lt : α → α → Bool) (hirr : IrreflB lt)
    (htr : TransB lt) (hneg : NegTransB lt) (l out : List α)
    (h : quicksort lt l = some out) : SortedB lt out :=
  quicksortFuel_sortedB lt hirr htr hneg l.length l out h

/-- The quicksort entry point leaves an already non-descending range
unchanged. -/
theorem quicksort_sorted_fix (lt : α → α → Bool) (hirr : IrreflB lt)
    (hneg : NegTransB lt) (l : List α) (hs : SortedB lt l) :
    quicksort lt l = some l :=
  quicksortFuel_sorted_fix lt hirr hneg l.length l le_rfl hs

/-- One unfolding of the quicksort entry point on a nonempty range: the
recursion happens exactly on the strictly-less and strictly-greater blocks,
and the equal block is placed between the two results untouched. -/
theorem quicksort_step (lt : α → α → Bool) (hirr : IrreflB lt) (x : α) (xs : List α) :
    ∃ a b, quicksort lt (qsLess lt x xs) = some a
      ∧ quicksort lt (qsGreater lt x xs) = some b
      ∧ quicksort lt (x :: xs) = some (a ++ qsEqual lt x xs ++ b) := by
  obtain ⟨hpm, hL, hG⟩ := qs_decrease lt hirr x xs
  obtain ⟨a, ha⟩ := quicksort_isSome lt hirr (qsLess lt x xs)
  obtain ⟨b, hb⟩ := quicksort_isSome lt hirr (qsGreater lt x xs)
  refine ⟨a, b, ha, hb, ?_⟩
  show quicksortFuel lt (xs.length + 1) (x :: xs) = _
  simp only [quicksortFuel]
  have ha' : quicksortFuel lt xs.length (qsLess lt x xs) = some a := by
    rw [quicksortFuel_irrel lt hirr xs.length (qsLess lt x xs).length
      (qsLess lt x xs) hL le_rfl]
    exact ha
  have hb' : quicksortFuel lt xs.length (qsGreater lt x xs) = some b := by
    rw [quicksortFuel_irrel lt hirr xs.length (qsGreater lt x xs).length
      (qsGreater lt x xs) hG le_rfl]
    exact hb
  rw [ha', hb']

/-- Sorting an already produced quicksort output reproduces it. -/
theorem quicksort_idem (lt : α → α → Bool) (hirr : IrreflB lt)
    (htr : TransB lt) (hneg : NegTransB lt) (l out : List α)
    (h : quicksort lt l = some out) : quicksort lt out = some out :=
  quicksort_sorted_fix lt hirr hneg out
    (quicksort_sortedB lt hirr htr hneg l out h)

/-- For the natural comparator of a linear order, the Bool-level sorted
predicate coincides with non-descending order. -/
theorem sortedB_iff_sorted [LinearOrder α] (l : List α) :
    SortedB ltb l ↔ l.Sorted (· ≤ ·) := by
  rw [SortedB, List.Sorted]
  constructor
  · intro h
    refine h.imp ?_
    intro a b hab
    simp [ltb] at hab
    exact hab
  · intro h
    refine h.imp ?_
    intro a b hab
    simp [ltb]
    exact hab

/-- Applying an in-place sort to the range covering `mid` inside the
sequence `pre ++ mid ++ post` rewrites `mid` and reassembles the untouched
outside parts around it. -/
theorem applyToRange_eq (f : List α → List α) (pre mid post : List α) :
    applyToRange f (pre ++ mid ++ post) pre.length (pre.length + mid.length)
      = pre ++ f mid ++ post := by
  rw [applyToRange, List.append_assoc pre mid post, List.take_left,
    List.drop_left]
  have h1 : pre.length + mid.length - pre.length = mid.length := by omega
  rw [h1, List.take_left, ← List.append_assoc pre mid post,
    List.drop_left' (by simp)]

/-- C1: for every finite sequence over a totally ordered element type, each
of `selection_sort`, `quicksort` and `merge_sort` reorders it in place into
a non-descending sequence that is a permutation (the same multiset) of the
input. -/
theorem claim_sorts_correct (α : Type) [LinearOrder α] (l : List α) :
    ((selection_sort ltb l).Perm l ∧ (selection_sort ltb l).Sorted (· ≤ ·))
    ∧ ((merge_sort ltb l).Perm l ∧ (merge_sort ltb l).Sorted (· ≤ ·))
    ∧ (∃ out, quicksort ltb l = some out ∧ out.Perm l ∧ out.Sorted (· ≤ ·)) := by
  refine ⟨⟨selection_sort_perm' ltb l, ?_⟩, ⟨merge_sort_perm' ltb l, ?_⟩, ?_⟩
  · exact (sortedB_iff_sorted _).mp
      (selection_sort_sortedB' ltb ltb_irrefl ltb_trans l)
  · exact (sortedB_iff_sorted _).mp
      (merge_sort_sortedB' ltb ltb_irrefl ltb_trans ltb_negtrans l)
  · obtain ⟨out, hout⟩ := quicksort_isSome ltb ltb_irrefl l
    exact ⟨out, hout, quicksort_perm ltb l out hout,
      (sortedB_iff_sorted _).mp
        (quicksort_sortedB ltb ltb_irrefl ltb_trans ltb_negtrans l out hout)⟩

/-- C2: `merge_sort` is stable: with elements tagged by a secondary key the
comparator does not see, the subsequence of elements of any fixed value is
unchanged by the sort, so equal elements keep their original relative
order. -/
theorem claim_merge_sort_stable (δ ε : Type) [LinearOrder δ]
    (l : List (δ × ε)) (k : δ) :
    (merge_sort ltKey l).filter (fun p => decide (p.1 = k))
      = l.filter (fun p => decide (p.1 = k)) :=
  merge_sort_filter k l.length l le_rfl

/-- C3: the sorts are generic in the element type's strict ordering, which
defaults to the natural one; with a descending comparator [5,3,1,4,2] sorts
to [5,4,3,2,1] under all three algorithms, and with the natural default it
sorts to [1,2,3,4,5]. -/
theorem claim_comparator_injection :
    selection_sort ltd ([5, 3, 1, 4, 2] : List Nat) = [5, 4, 3, 2, 1]
    ∧ quicksort ltd ([5, 3, 1, 4, 2] : List Nat) = some [5, 4, 3, 2, 1]
    ∧ merge_sort ltd ([5, 3, 1, 4, 2] : List Nat) = [5, 4, 3, 2, 1]
    ∧ selection_sort ltb ([5, 3, 1, 4, 2] : List Nat) = [1, 2, 3, 4, 5]
    ∧ quicksort ltb ([5, 3, 1, 4, 2] : List Nat) = some [1, 2, 3, 4, 5]
    ∧ merge_sort ltb ([5, 3, 1, 4, 2] : List Nat) = [1, 2, 3, 4, 5] := by
  refine ⟨?_, by decide, ?_, ?_, by decide, ?_⟩
  · simp [selection_sort, minScan, ltd]
  · simp [merge_sort, inplace_merge, ltd]
  · simp [selection_sort, minScan, ltb]
  · simp [merge_sort, inplace_merge, ltb]

/-- C4: every call on a valid finite range terminates: the quicksort
recursion always completes within fuel equal to the range length, and on
the all-duplicate range [7,7,7,7,7] all three sorts run to completion and
return [7,7,7,7,7]. -/
theorem claim_sorts_terminate :
    (∀ (α : Type) [inst : LinearOrder α] (l : List α),
      ∃ out, quicksort ltb l = some out)
    ∧ quicksort ltb ([7, 7, 7, 7, 7] : List Nat) = some [7, 7, 7, 7, 7]
    ∧ selection_sort ltb ([7, 7, 7, 7, 7] : List Nat) = [7, 7, 7, 7, 7]
    ∧ merge_sort ltb ([7, 7, 7, 7, 7] : List Nat) = [7, 7, 7, 7, 7] := by
  refine ⟨?_, by decide, ?_, ?_⟩
  · intro α inst l
    exact quicksort_isSome ltb ltb_irrefl l
  · simp [selection_sort, minScan, ltb]
  · simp [merge_sort, inplace_merge, ltb]

/-- C5: in a quicksort step on a nonempty range the pivot is the value at
distance/2 from the start; after the two partitions every element before
`middle1` is strictly less than the pivot, every element of
`[middle1, middle2)` is not greater than the pivot (indeed equal to it),
and the recursion runs exactly on the two outer blocks with the equal block
left in place between the recursive results. -/
theorem claim_quicksort_partition (α : Type) [LinearOrder α] (x : α) (xs : List α) :
    qsPivot x xs = (x :: xs).getD ((x :: xs).length / 2) x
    ∧ (∀ z ∈ qsLess ltb x xs, z < qsPivot x xs)
    ∧ (∀ z ∈ qsEqual ltb x xs, ¬ qsPivot x xs < z ∧ z = qsPivot x xs)
    ∧ (∃ a b, quicksort ltb (qsLess ltb x xs) = some a
        ∧ quicksort ltb (qsGreater ltb x xs) = some b
        ∧ quicksort ltb (x :: xs) = some (a ++ qsEqual ltb x xs ++ b)) := by
  refine ⟨rfl, ?_, ?_, quicksort_step ltb ltb_irrefl x xs⟩
  · intro z hz
    have h1 := qsLess_mem ltb x xs z hz
    simpa [ltb] using h1
  · intro z hz
    obtain ⟨h1, h2⟩ := qsEqual_mem ltb x xs z hz
    simp [ltb] at h1 h2
    exact ⟨not_lt.mpr h1, le_antisymm h1 h2⟩

/-- C6: neither `selection_sort` nor `quicksort` is stable: on the range
[(2,0), (2,1), (1,2)] ordered by value only, both produce
[(1,2), (2,1), (2,0)], so the value-2 elements, in tag order [0, 1] before
the call, end up in tag order [1, 0]. -/
theorem claim_sorts_unstable :
    selection_sort ltKey [((2 : Nat), (0 : Nat)), (2, 1), (1, 2)]
      = [(1, 2), (2, 1), (2, 0)]
    ∧ quicksort ltKey [((2 : Nat), (0 : Nat)), (2, 1), (1, 2)]
      = some [(1, 2), (2, 1), (2, 0)]
    ∧ ([((2 : Nat), (0 : Nat)), (2, 1), (1, 2)]).filter
        (fun p => decide (p.1 = 2)) = [(2, 0), (2, 1)]
    ∧ ([((1 : Nat), (2 : Nat)), (2, 1), (2, 0)]).filter
        (fun p => decide (p.1 = 2)) = [(2, 1), (2, 0)]
    ∧ [((2 : Nat), (0 : Nat)), (2, 1)] ≠ [((2 : Nat), (1 : Nat)), (2, 0)] := by
  refine ⟨?_, by decide, by decide, by decide, by decide⟩
  simp [selection_sort, minScan, ltKey]

/-- C7: each sort mutates only the supplied range: applied to the range
covering `mid` inside `pre ++ mid ++ post`, the result is
`pre ++ sorted mid ++ post`, so every element outside the range is
unchanged and the sequence length is preserved. -/
theorem claim_sorts_frame (α : Type) [LinearOrder α] (pre mid post : List α) :
    applyToRange (selection_sort ltb) (pre ++ mid ++ post) pre.length
        (pre.length + mid.length) = pre ++ selection_sort ltb mid ++ post
    ∧ applyToRange (merge_sort ltb) (pre ++ mid ++ post) pre.length
        (pre.length + mid.length) = pre ++ merge_sort ltb mid ++ post
    ∧ (pre ++ selection_sort ltb mid ++ post).length
        = (pre ++ mid ++ post).length
    ∧ (pre ++ merge_sort ltb mid ++ post).length = (pre ++ mid ++ post).length
    ∧ (∀ out, quicksort ltb mid = some out →
        (pre ++ out ++ post).length = (pre ++ mid ++ post).length) := by
  refine ⟨applyToRange_eq (selection_sort ltb) pre mid post,
    applyToRange_eq (merge_sort ltb) pre mid post, ?_, ?_, ?_⟩
  · simp [(selection_sort_perm' ltb mid).length_eq]
  · simp [(merge_sort_perm' ltb mid).length_eq]
  · intro out h
    simp [(quicksort_perm ltb mid out h).length_eq]

/-- Witness for C7 at a concrete input: the quicksort clause applied to the
range [3, 2] inside [1, 3, 2, 4]. -/
theorem claim_sorts_frame_witness :
    quicksort ltb ([3, 2] : List Nat) = some [2, 3]
    ∧ (([1] : List Nat) ++ [2, 3] ++ [4]).length
        = (([1] : List Nat) ++ [3, 2] ++ [4]).length :=
  ⟨by decide, (claim_sorts_frame Nat [1] [3, 2] [4]).2.2.2.2 [2, 3] (by decide)⟩

/-- C8: each sort is idempotent: sorting an already sorted output changes
nothing. -/
theorem claim_sorts_idempotent (α : Type) [LinearOrder α] (l : List α) :
    selection_sort ltb (selection_sort ltb l) = selection_sort ltb l
    ∧ merge_sort ltb (merge_sort ltb l) = merge_sort ltb l
    ∧ (∀ out, quicksort ltb l = some out → quicksort ltb out = some out) := by
  refine ⟨?_, ?_, ?_⟩
  · exact selection_sort_sorted_id ltb (selection_sort ltb l).length _ le_rfl
      (selection_sort_sortedB' ltb ltb_irrefl ltb_trans l)
  · exact merge_sort_sorted_id ltb (merge_sort ltb l).length _ le_rfl
      (merge_sort_sortedB' ltb ltb_irrefl ltb_trans ltb_negtrans l)
  · intro out h
    exact quicksort_idem ltb ltb_irrefl ltb_trans ltb_negtrans l out h

/-- Witness for C8 at a concrete input: re-running quicksort on its own
output for [2, 1]. -/
theorem claim_sorts_idempotent_witness :
    quicksort ltb ([1, 2] : List Nat) = some [1, 2] :=
  (claim_sorts_idempotent Nat [2, 1]).2.2 [1, 2] (by decide)

/-- C9: the three sorts agree: their outputs are permutations of each
other (equal as multisets), and when the input has pairwise distinct
elements the outputs coincide element for element. -/
theorem claim_sorts_equivalent (α : Type) [LinearOrder α] (l : List α) :
    (∃ out, quicksort ltb l = some out
      ∧ (selection_sort ltb l).Perm out
      ∧ (merge_sort ltb l).Perm out
      ∧ (selection_sort ltb l).Perm (merge_sort ltb l))
    ∧ (l.Nodup → selection_sort ltb l = merge_sort ltb l
        ∧ quicksort ltb l = some (selection_sort ltb l)) := by
  have hsel := selection_sort_perm' ltb l
  have hms := merge_sort_perm' ltb l
  have hselS := (sortedB_iff_sorted _).mp
    (selection_sort_sortedB' ltb ltb_irrefl ltb_trans l)
  have hmsS := (sortedB_iff_sorted _).mp
    (merge_sort_sortedB' ltb ltb_irrefl ltb_trans ltb_negtrans l)
  have heq : selection_sort ltb l = merge_sort ltb l :=
    List.eq_of_perm_of_sorted (hsel.trans hms.symm) hselS hmsS
  obtain ⟨out, hout⟩ := quicksort_isSome ltb ltb_irrefl l
  have houtP := quicksort_perm ltb l out hout
  have houtS := (sortedB_iff_sorted _).mp
    (quicksort_sortedB ltb ltb_irrefl ltb_trans ltb_negtrans l out hout)
  have heq2 : selection_sort ltb l = out :=
    List.eq_of_perm_of_sorted (hsel.trans houtP.symm) hselS houtS
  refine ⟨⟨out, hout, hsel.trans houtP.symm, hms.trans houtP.symm,
    hsel.trans hms.symm⟩, ?_⟩
  intro _
  refine ⟨heq, ?_⟩
  rw [heq2]
  exact hout

/-- Witness for C9 at a concrete input with pairwise distinct elements. -/
theorem claim_sorts_equivalent_witness :
    selection_sort ltb ([3, 1, 2] : List Nat) = merge_sort ltb [3, 1, 2]
    ∧ quicksort ltb ([3, 1, 2] : List Nat)
        = some (selection_sort ltb [3, 1, 2]) :=
  (claim_sorts_equivalent Nat [3, 1, 2]).2 (by decide)

/-- C10: in every quicksort step on a nonempty range the equal block is
nonempty — the pivot value itself lands in it — so both recursive calls
operate on strictly shorter ranges, whatever the input. -/
theorem claim_quicksort_decrease (α : Type) [LinearOrder α] (x : α) (xs : List α) :
    qsPivot x xs ∈ qsEqual ltb x xs
    ∧ qsEqual ltb x xs ≠ []
    ∧ (qsLess ltb x xs).length < (x :: xs).length
    ∧ (qsGreater ltb x xs).length < (x :: xs).length := by
  obtain ⟨h1, h2, h3⟩ := qs_decrease ltb ltb_irrefl x xs
  refine ⟨h1, ?_, by simp; omega, by simp; omega⟩
  intro hnil
  rw [hnil] at h1
  simp at h1

/-- Witness for C1 at a concrete input. -/
theorem claim_sorts_correct_witness :
    ((selection_sort ltb ([2, 1] : List Nat)).Perm [2, 1]
      ∧ (selection_sort ltb ([2, 1] : List Nat)).Sorted (· ≤ ·))
    ∧ ((merge_sort ltb ([2, 1] : List Nat)).Perm [2, 1]
      ∧ (merge_sort ltb ([2, 1] : List Nat)).Sorted (· ≤ ·))
    ∧ (∃ out, quicksort ltb ([2, 1] : List Nat) = some out
        ∧ out.Perm [2, 1] ∧ out.Sorted (· ≤ ·)) :=
  claim_sorts_correct Nat [2, 1]

/-- Witness for C2 at a concrete input. -/
theorem claim_merge_sort_stable_witness :
    (merge_sort ltKey [((1 : Nat), (0 : Nat)), (1, 1)]).filter
        (fun p => decide (p.1 = 1))
      = ([((1 : Nat), (0 : Nat)), (1, 1)]).filter (fun p => decide (p.1 = 1)) :=
  claim_merge_sort_stable Nat Nat [(1, 0), (1, 1)] 1

/-- Witness for C5 at a concrete input. -/
theorem claim_quicksort_partition_witness :
    qsPivot (5 : Nat) [3, 1, 4, 2]
      = ([5, 3, 1, 4, 2] : List Nat).getD
          (([5, 3, 1, 4, 2] : List Nat).length / 2) 5
    ∧ (∀ z ∈ qsLess ltb (5 : Nat) [3, 1, 4, 2], z < qsPivot 5 [3, 1, 4, 2])
    ∧ (∀ z ∈ qsEqual ltb (5 : Nat) [3, 1, 4, 2],
        ¬ qsPivot 5 [3, 1, 4, 2] < z ∧ z = qsPivot 5 [3, 1, 4, 2])
    ∧ (∃ a b, quicksort ltb (qsLess ltb (5 : Nat) [3, 1, 4, 2]) = some a
        ∧ quicksort ltb (qsGreater ltb (5 : Nat) [3, 1, 4, 2]) = some b
        ∧ quicksort ltb ([5, 3, 1, 4, 2] : List Nat)
            = some (a ++ qsEqual ltb (5 : Nat) [3, 1, 4, 2] ++ b)) :=
  claim_quicksort_partition Nat 5 [3, 1, 4, 2]

/-- Witness for C10 at a concrete input. -/
theorem claim_quicksort_decrease_witness :
    qsPivot (7 : Nat) [7, 7, 7, 7] ∈ qsEqual ltb (7 : Nat) [7, 7, 7, 7]
    ∧ qsEqual ltb (7 : Nat) [7, 7, 7, 7] ≠ []
    ∧ (qsLess ltb (7 : Nat) [7, 7, 7, 7]).length
        < ([7, 7, 7, 7, 7] : List Nat).length
    ∧ (qsGreater ltb (7 : Nat) [7, 7, 7, 7]).length
        < ([7, 7, 7, 7, 7] : List Nat).length :=
  claim_quicksort_decrease Nat 7 [7, 7, 7, 7]

end STLAlg
